import Mathlib

/-!
Shallow embedding of the qibo `NumpyEngine` statevector simulation core
(`src/qibo/engines/numpy.py`): dense arrays, the einsum-based gate
application, control-qubit axis ordering, and controlled-matrix promotion.

Arrays are modelled numpy-style as a row-major flat data list together with a
shape; fallible numpy operations return `Except String`.
-/

namespace Qibo

/-- A dense numpy-style array over a ring `R`: a shape together with the
row-major flat data buffer. -/
structure NdArray (R : Type) where
  shape : List Nat
  data : List R
deriving DecidableEq, Repr

/-- The gate collaborator.  Modelled from the spec: the `Gate` abstraction is
an external collaborator of the engine ("a `Gate` abstraction exposing qubit
indices, control indices, and a dense matrix"): it carries an ordered list of
target qubits `T`, an ordered list of control qubits `C` disjoint from `T`,
and the bare unitary matrix of shape `(2^|T|, 2^|T|)` (what
`engine.asmatrix(gate)` returns). -/
structure Gate (R : Type) where
  target_qubits : List Nat
  control_qubits : List Nat
  matrix : NdArray R

/-- Modelled from the spec: the combined qubit list of a gate, controls first
then targets (for an uncontrolled gate this is exactly the target list over
which §4.5 step 3 contracts). -/
def Gate.qubits {R : Type} (g : Gate R) : List Nat :=
  g.control_qubits ++ g.target_qubits

/-- Modelled from the spec: a gate is "controlled by" other qubits exactly
when its control list is nonempty (§4.5 step 2 "If the gate has controls"). -/
def Gate.is_controlled_by {R : Type} (g : Gate R) : Bool :=
  !g.control_qubits.isEmpty

/-- Row-major flat index of a multi-index `idx` in an array of shape
`shape`. -/
def flatIndex (shape idx : List Nat) : Nat :=
  (shape.zip idx).foldl (fun acc p => acc * p.1 + p.2) 0

/-- Row-major multi-index of flat position `k` in shape `shape`. -/
def unflatten : List Nat → Nat → List Nat
  | [], _ => []
  | _ :: rest, k => (k / rest.prod) :: unflatten rest (k % rest.prod)

/-- `np.reshape`: succeeds when the total element count is preserved. -/
def np_reshape {R : Type} (a : NdArray R) (s : List Nat) :
    Except String (NdArray R) :=
  if a.shape.prod = s.prod then .ok ⟨s, a.data⟩
  else .error "cannot reshape array: total size changed"

/-- `np.transpose(a, axes)`: permutes the axes of `a`; `axes` must be a
permutation of `0, ..., ndim-1`. -/
def np_transpose {R : Type} [CommRing R] (a : NdArray R) (axes : List Nat) :
    Except String (NdArray R) :=
  let n := a.shape.length
  if axes.length = n ∧ ∀ q ∈ List.range n, q ∈ axes then
    let newShape := axes.map (fun k => a.shape.getD k 0)
    .ok ⟨newShape,
      (List.range newShape.prod).map (fun k =>
        let newIdx := unflatten newShape k
        let oldIdx := (List.range n).map
          (fun q => newIdx.getD (axes.indexOf q) 0)
        a.data.getD (flatIndex a.shape oldIdx) 0)⟩
  else .error "axes do not match array"

/-- `a[-1]` for an array whose leading axis is the slicing axis: the last
slice along axis 0. -/
def np_lastSlice {R : Type} (a : NdArray R) : Except String (NdArray R) :=
  match a.shape with
  | [] => .error "too many indices for array"
  | d :: rest =>
    if d = 0 then .error "index -1 is out of bounds for axis 0"
    else .ok ⟨rest, (a.data.drop ((d - 1) * rest.prod)).take rest.prod⟩

/-- `a[:-1]`: everything but the last slice along axis 0. -/
def np_initSlice {R : Type} (a : NdArray R) : Except String (NdArray R) :=
  match a.shape with
  | [] => .error "too many indices for array"
  | d :: rest => .ok ⟨(d - 1) :: rest, a.data.take ((d - 1) * rest.prod)⟩

/-- `a[np.newaxis]`: prepend a length-1 axis. -/
def np_newaxis {R : Type} (a : NdArray R) : NdArray R :=
  ⟨1 :: a.shape, a.data⟩

/-- `np.concatenate([a, b], axis=0)`: the shapes must agree on every axis but
the first. -/
def np_concat0 {R : Type} (a b : NdArray R) : Except String (NdArray R) :=
  match a.shape, b.shape with
  | a0 :: atail, b0 :: btail =>
    if atail = btail then .ok ⟨(a0 + b0) :: atail, a.data ++ b.data⟩
    else .error "all the input array dimensions must match exactly"
  | _, _ => .error "zero-dimensional arrays cannot be concatenated"

/-- `np.concatenate([a, b], axis=1)` for two-dimensional arrays: the row
counts must agree and each row of the result is the row of `a` followed by
the row of `b`. -/
def np_concat1 {R : Type} (a b : NdArray R) : Except String (NdArray R) :=
  match a.shape, b.shape with
  | [r1, c1], [r2, c2] =>
    if r1 = r2 then
      .ok ⟨[r1, c1 + c2],
        (List.range r1).flatMap (fun i =>
          ((a.data.drop (i * c1)).take c1) ++ ((b.data.drop (i * c2)).take c2))⟩
    else .error "all the input array dimensions must match exactly"
  | _, _ => .error "concatenate axis 1 requires two-dimensional arrays"

/-- All assignments of the listed variables, each ranging over `0, ..., d-1`
for its paired dimension `d`. -/
def assignments : List (Char × Nat) → List (List (Char × Nat))
  | [] => [[]]
  | (c, d) :: rest =>
    (List.range d).flatMap (fun v => (assignments rest).map (fun σ => (c, v) :: σ))

/-- Value of variable `c` under the assignment `σ`. -/
def assignLookup (σ : List (Char × Nat)) (c : Char) : Nat :=
  ((σ.find? (fun p => p.1 = c)).map Prod.snd).getD 0

/-- `np.einsum(s1 ++ "," ++ s2 ++ "->" ++ sout, a, b)`: the generalized
two-operand contraction.  Each operand's subscript list must have exactly one
character per array dimension, repeated characters must carry consistent
dimensions, and every output character must occur in an input. -/
def np_einsum {R : Type} [CommRing R] (s1 s2 sout : List Char)
    (a b : NdArray R) : Except String (NdArray R) :=
  if s1.length ≠ a.shape.length then
    .error "einstein sum subscripts string contains too many subscripts for operand 0"
  else if s2.length ≠ b.shape.length then
    .error "einstein sum subscripts string contains too many subscripts for operand 1"
  else
    let dims := s1.zip a.shape ++ s2.zip b.shape
    let dimOf : Char → Nat := fun c =>
      ((dims.find? (fun p => p.1 = c)).map Prod.snd).getD 0
    if ¬ (∀ p ∈ dims, p.2 = dimOf p.1) then
      .error "operands could not be broadcast together"
    else if ¬ (∀ c ∈ sout, c ∈ s1 ++ s2) then
      .error "einstein sum subscripts string included an output subscript which never appeared in an input"
    else
      let sumVars := ((s1 ++ s2).dedup.filter
        (fun c => decide (c ∉ sout))).map (fun c => (c, dimOf c))
      let outShape := sout.map dimOf
      .ok ⟨outShape,
        (List.range outShape.prod).map (fun k =>
          let σout := sout.zip (unflatten outShape k)
          ((assignments sumVars).map (fun σfree =>
            let σ := σout ++ σfree
            a.data.getD (flatIndex a.shape (s1.map (assignLookup σ))) 0 *
            b.data.getD (flatIndex b.shape (s2.map (assignLookup σ))) 0)).sum)⟩

/-- Modelled from the spec: the pool of einsum subscript characters used by
the engine (`qibo.config.EINSUM_CHARS`, a configuration collaborator outside
the core sources): the 52 Latin letters. -/
def EINSUM_CHARS : List Char :=
  "abcdefghijklmnopqrstuvwxyzABCDEFGHIJKLMNOPQRSTUVWXYZ".toList

/-- `NumpyEngine.zero_state(nqubits)`: a zero-filled buffer of `2^nqubits`
amplitudes with `state[0] = 1`. -/
def zero_state (R : Type) [CommRing R] (nqubits : Nat) : NdArray R :=
  ⟨[2 ^ nqubits], (List.replicate (2 ^ nqubits) (0 : R)).set 0 1⟩

/-- `NumpyEngine._einsum_string(gate, nqubits)`: builds the three subscript
lists `inp`, `trans`, `out` of the einsum expression
`inp,trans->out`.  `inp` is one fresh character per state axis; `trans`
starts with one fresh character per gate qubit and, for the `i`-th gate
qubit `q`, appends `inp[q]` and overwrites `out[q]` with `trans[i]`. -/
def einsum_string {R : Type} (g : Gate R) (nqubits : Nat) :
    List Char × List Char × List Char :=
  let inp := EINSUM_CHARS.take nqubits
  let trans0 := (EINSUM_CHARS.drop nqubits).take g.qubits.length
  let res := g.qubits.enum.foldl
    (fun (acc : List Char × List Char) p =>
      let trans := acc.1 ++ [inp.getD p.2 ' ']
      (trans, acc.2.set p.2 (trans.getD p.1 ' ')))
    (trans0, inp)
  (inp, res.1, res.2)

/-- One iteration of the loop over the control qubits in
`NumpyEngine._control_order`: given the original target list `ts` and the
state `(loop_start, order, targets)`, process one control qubit: extend
`order` with the axes from `loop_start` up to the control, move `loop_start`
past the control, and decrement every current target whose original value
exceeds the control. -/
def controlStep (ts : List Nat) (acc : Nat × List Nat × List Int)
    (control : Nat) : Nat × List Nat × List Int :=
  (control + 1,
   acc.2.1 ++ List.range' acc.1 (control - acc.1),
   List.zipWith (fun t v => if control < t then v - 1 else v) ts acc.2.2)

/-- `NumpyEngine._control_order(gate, nqubits)`: returns the axis ordering
(controls first, then the remaining axes) and the adjusted target indices. -/
def control_order {R : Type} (g : Gate R) (nqubits : Nat) :
    List Nat × List Int :=
  let fin := g.control_qubits.foldl (controlStep g.target_qubits)
    (0, g.control_qubits, g.target_qubits.map Int.ofNat)
  (fin.2.1 ++ List.range' fin.1 (nqubits - fin.1), fin.2.2)

/-- The inverse-permutation computation inlined in
`NumpyEngine.apply_gate`: start from `len(order) * [0]` and set
`reverse_order[r] = i` for every position `i` holding axis `r`. -/
def reverse_order (order : List Nat) : List Nat :=
  order.enum.foldl (fun acc p => acc.set p.2 p.1)
    (List.replicate order.length 0)

/-- `NumpyEngine.apply_gate(gate, state, nqubits)`: reshape the state to an
`nqubits`-axis tensor, build the einsum subscripts, then either run the
controlled path (reorder axes so the controls come first, contract the gate
matrix against the all-controls-one slice, concatenate the untouched slices
back, undo the permutation) or contract the whole tensor, and reshape back
to a flat vector. -/
def apply_gate {R : Type} [CommRing R] (g : Gate R) (state : NdArray R)
    (nqubits : Nat) : Except String (NdArray R) := do
  let state ← np_reshape state (List.replicate nqubits 2)
  let op := einsum_string g nqubits
  if g.is_controlled_by then do
    let matrix ← np_reshape g.matrix
      (List.replicate (2 * g.target_qubits.length) 2)
    let ncontrol := g.control_qubits.length
    let nactive := nqubits - ncontrol
    let order := (control_order g nqubits).1
    let state ← np_transpose state order
    let state ← np_reshape state (2 ^ ncontrol :: List.replicate nactive 2)
    let last ← np_lastSlice state
    let updates ← np_einsum op.1 op.2.1 op.2.2 last matrix
    let init ← np_initSlice state
    let state ← np_concat0 init (np_newaxis updates)
    let state ← np_reshape state (List.replicate nqubits 2)
    let state ← np_transpose state (reverse_order order)
    np_reshape state [2 ^ nqubits]
  else do
    let matrix ← np_reshape g.matrix (List.replicate (2 * g.qubits.length) 2)
    let state ← np_einsum op.1 op.2.1 op.2.2 state matrix
    np_reshape state [2 ^ nqubits]

/-- The 2×2 identity array `np.eye(2)`. -/
def eye2 (R : Type) [CommRing R] : NdArray R :=
  ⟨[2, 2], [1, 0, 0, 1]⟩

/-- `NumpyEngine.control_matrix(gate)`: reject more than one control qubit
and any bare matrix whose shape is not `(2, 2)`, then assemble the 4×4
block matrix from `np.eye(2)`, two zero blocks, and the bare matrix by
concatenating along axis 0 and then axis 1. -/
def control_matrix {R : Type} [CommRing R] (g : Gate R) :
    Except String (NdArray R) :=
  if 1 < g.control_qubits.length then
    .error "Cannot calculate controlled unitary for more than two control qubits."
  else
    let matrix := g.matrix
    if matrix.shape ≠ [2, 2] then
      .error "Cannot use control_unitary method on gate matrix of this shape."
    else do
      let zeros : NdArray R := ⟨[2, 2], List.replicate 4 0⟩
      let part1 ← np_concat0 (eye2 R) zeros
      let part2 ← np_concat0 zeros matrix
      np_concat1 part1 part2

/-- View a `(2, 2)`-shaped array as a `Matrix (Fin 2) (Fin 2) R`. -/
def toMatrix2 {R : Type} [CommRing R] (a : NdArray R) :
    Matrix (Fin 2) (Fin 2) R :=
  Matrix.of fun i j => a.data.getD (2 * i.val + j.val) 0

/-- View a `(4, 4)`-shaped array as a `Matrix (Fin 4) (Fin 4) R`. -/
def toMatrix4 {R : Type} [CommRing R] (a : NdArray R) :
    Matrix (Fin 4) (Fin 4) R :=
  Matrix.of fun i j => a.data.getD (4 * i.val + j.val) 0

/-- Follows the spec's words: the 4×4 block matrix `[[I, 0], [0, U]]` —
identity on the control = 0 block, the bare unitary `U` on the control = 1
block, zeros off the diagonal blocks. -/
def controlBlockSpec (R : Type) [CommRing R]
    (U : Matrix (Fin 2) (Fin 2) R) : Matrix (Fin 4) (Fin 4) R :=
  Matrix.reindex finSumFinEquiv finSumFinEquiv (Matrix.fromBlocks 1 0 0 U)

/-- The Pauli-X matrix `[[0, 1], [1, 0]]` as a dense array over `ℤ`. -/
def pauliX : NdArray Int := ⟨[2, 2], [0, 1, 1, 0]⟩

/-- Uncontrolled Pauli-X gate on qubit 0. -/
def xGate0 : Gate Int := ⟨[0], [], pauliX⟩

/-- Pauli-X on target qubit 1 controlled by qubit 0 (CNOT, via the
`controlled_by` path). -/
def cnot01 : Gate Int := ⟨[1], [0], pauliX⟩

/-- A list of four elements is literally a four-element list. -/
theorem list_length_four {R : Type} (l : List R) (h : l.length = 4) :
    ∃ a b c d, l = [a, b, c, d] := by
  match l, h with
  | [a, b, c, d], _ => exact ⟨a, b, c, d, rfl⟩

/-- Evaluation of `control_matrix` on a well-formed single- or zero-control
gate: the block-assembled 4×4 array, written out entry by entry. -/
theorem control_matrix_eval {R : Type} [CommRing R] (g : Gate R)
    (hc : g.control_qubits.length ≤ 1) (a b c d : R)
    (hm : g.matrix = ⟨[2, 2], [a, b, c, d]⟩) :
    control_matrix g =
      .ok ⟨[4, 4], [1, 0, 0, 0, 0, 1, 0, 0, 0, 0, a, b, 0, 0, c, d]⟩ := by
  unfold control_matrix
  rw [if_neg (by omega), hm]
  rfl

/-- The block-assembled array viewed as a matrix is exactly the
`[[I, 0], [0, U]]` block matrix. -/
theorem toMatrix4_block {R : Type} [CommRing R] (a b c d : R) :
    toMatrix4 (⟨[4, 4], [1, 0, 0, 0, 0, 1, 0, 0, 0, 0, a, b, 0, 0, c, d]⟩ :
        NdArray R) =
      controlBlockSpec R (toMatrix2 ⟨[2, 2], [a, b, c, d]⟩) := by
  ext i j
  rcases i with ⟨iv, hi⟩
  rcases j with ⟨jv, hj⟩
  interval_cases iv <;> interval_cases jv <;> rfl

/-- Core evaluation: on any gate with at most one control and a well-formed
2×2 bare matrix, `control_matrix` succeeds and the result, viewed as a
matrix, is the `[[I, 0], [0, U]]` block matrix. -/
theorem control_matrix_block_core {R : Type} [CommRing R] (g : Gate R)
    (hc : g.control_qubits.length ≤ 1) (hs : g.matrix.shape = [2, 2])
    (hw : g.matrix.data.length = 4) :
    ∃ M, control_matrix g = .ok M ∧
      toMatrix4 M = controlBlockSpec R (toMatrix2 g.matrix) := by
  obtain ⟨a, b, c, d, hl⟩ := list_length_four g.matrix.data hw
  have hm : g.matrix = ⟨[2, 2], [a, b, c, d]⟩ := by
    calc g.matrix = ⟨g.matrix.shape, g.matrix.data⟩ := rfl
    _ = ⟨[2, 2], [a, b, c, d]⟩ := by rw [hs, hl]
  refine ⟨_, control_matrix_eval g hc a b c d hm, ?_⟩
  rw [hm, toMatrix4_block]

/-- The `[[I, 0], [0, U]]` block matrix is unitary whenever `U` is. -/
theorem controlBlockSpec_unitary {R : Type} [CommRing R] [StarRing R]
    (U : Matrix (Fin 2) (Fin 2) R) (hu : U ∈ Matrix.unitaryGroup (Fin 2) R) :
    controlBlockSpec R U ∈ Matrix.unitaryGroup (Fin 4) R := by
  rw [Matrix.mem_unitaryGroup_iff] at hu ⊢
  unfold controlBlockSpec
  rw [Matrix.reindex_apply, Matrix.star_eq_conjTranspose,
    Matrix.conjTranspose_submatrix, Matrix.submatrix_mul_equiv,
    Matrix.fromBlocks_conjTranspose]
  rw [Matrix.star_eq_conjTranspose] at hu
  simp only [Matrix.conjTranspose_one, Matrix.conjTranspose_zero,
    Matrix.fromBlocks_multiply, Matrix.mul_one, Matrix.one_mul,
    Matrix.mul_zero, Matrix.zero_mul, add_zero, zero_add, hu]
  rw [Matrix.fromBlocks_one, Matrix.submatrix_one_equiv]

/-- C3: for every gate (with the §4.2 control-count precondition) whose bare
2×2 unitary is `U`, `control_matrix` returns the 4×4 block matrix
`[[I, 0], [0, U]]`: identity on the control = 0 block, `U` on the
control = 1 block, zeros off the diagonal blocks. -/
theorem C3_control_matrix_is_block {R : Type} [CommRing R] (g : Gate R)
    (hc : g.control_qubits.length ≤ 1) (hs : g.matrix.shape = [2, 2])
    (hw : g.matrix.data.length = 4) :
    ∃ M, control_matrix g = .ok M ∧
      toMatrix4 M = controlBlockSpec R (toMatrix2 g.matrix) :=
  control_matrix_block_core g hc hs hw

/-- Witness for C3: the single-control Pauli-X gate. -/
theorem C3_witness :
    ∃ M, control_matrix cnot01 = .ok M ∧
      toMatrix4 M = controlBlockSpec Int (toMatrix2 cnot01.matrix) :=
  C3_control_matrix_is_block cnot01 (by decide) (by decide) (by decide)

/-- C4: for every 2×2 unitary input matrix `U`, the 4×4 matrix returned by
`control_matrix` is itself unitary. -/
theorem C4_control_matrix_unitary {R : Type} [CommRing R] [StarRing R]
    (g : Gate R) (hc : g.control_qubits.length ≤ 1)
    (hs : g.matrix.shape = [2, 2]) (hw : g.matrix.data.length = 4)
    (hu : toMatrix2 g.matrix ∈ Matrix.unitaryGroup (Fin 2) R) :
    ∃ M, control_matrix g = .ok M ∧
      toMatrix4 M ∈ Matrix.unitaryGroup (Fin 4) R := by
  obtain ⟨M, hok, hblock⟩ := control_matrix_block_core g hc hs hw
  exact ⟨M, hok, hblock ▸ controlBlockSpec_unitary _ hu⟩

/-- Witness for C4: the single-control Pauli-X gate over `ℤ`. -/
theorem C4_witness :
    ∃ M, control_matrix cnot01 = .ok M ∧
      toMatrix4 M ∈ Matrix.unitaryGroup (Fin 4) Int :=
  C4_control_matrix_unitary cnot01 (by decide) (by decide) (by decide)
    (Matrix.mem_unitaryGroup_iff.mpr (by decide))

/-- C9: `control_matrix` raises an unsupported-operation error for every
gate with more than one control qubit, and an invalid-shape error for every
gate (passing the control guard) whose bare unitary is not of shape
`(2, 2)`; in the `Except` embedding an error result means no matrix was
built. -/
theorem C9_control_matrix_errors {R : Type} [CommRing R] (g : Gate R) :
    (1 < g.control_qubits.length →
      control_matrix g =
        .error "Cannot calculate controlled unitary for more than two control qubits.") ∧
    (g.control_qubits.length ≤ 1 → g.matrix.shape ≠ [2, 2] →
      control_matrix g =
        .error "Cannot use control_unitary method on gate matrix of this shape.") := by
  constructor
  · intro h
    unfold control_matrix
    rw [if_pos h]
  · intro h1 h2
    unfold control_matrix
    rw [if_neg (by omega), if_pos h2]

/-- A (hypothetical) gate with two control qubits. -/
def gTwoControls : Gate Int := ⟨[2], [0, 1], pauliX⟩

/-- A gate whose bare matrix has shape `(4, 4)` instead of `(2, 2)`. -/
def gBadShape : Gate Int := ⟨[0, 1], [], ⟨[4, 4], List.replicate 16 0⟩⟩

/-- Witness for C9: both error branches at concrete gates. -/
theorem C9_witness :
    control_matrix gTwoControls =
      .error "Cannot calculate controlled unitary for more than two control qubits." ∧
    control_matrix gBadShape =
      .error "Cannot use control_unitary method on gate matrix of this shape." :=
  ⟨(C9_control_matrix_errors gTwoControls).1 (by decide),
   (C9_control_matrix_errors gBadShape).2 (by decide) (by decide)⟩

/-- C10: `control_matrix` does not reject a gate with zero control qubits:
the guard only rejects more than one control, so an uncontrolled gate with
a well-formed `(2, 2)` bare matrix succeeds and yields the same
`[[I, 0], [0, U]]` block matrix as the single-control case. -/
theorem C10_control_matrix_zero_controls {R : Type} [CommRing R] (g : Gate R)
    (hc : g.control_qubits = []) (hs : g.matrix.shape = [2, 2])
    (hw : g.matrix.data.length = 4) :
    ∃ M, control_matrix g = .ok M ∧
      toMatrix4 M = controlBlockSpec R (toMatrix2 g.matrix) :=
  control_matrix_block_core g (by rw [hc]; decide) hs hw

/-- Witness for C10: the uncontrolled Pauli-X gate. -/
theorem C10_witness :
    ∃ M, control_matrix xGate0 = .ok M ∧
      toMatrix4 M = controlBlockSpec Int (toMatrix2 xGate0.matrix) :=
  C10_control_matrix_zero_controls xGate0 rfl (by decide) (by decide)

/-- C8: `zero_state(1)` is the vector `[1, 0]`, and applying the
uncontrolled Pauli-X gate on qubit 0 to it via `apply_gate` returns
`[0, 1]`. -/
theorem C8_zero_state_and_pauliX :
    zero_state Int 1 = ⟨[2], [1, 0]⟩ ∧
    apply_gate xGate0 (zero_state Int 1) 1 = .ok ⟨[2], [0, 1]⟩ := by
  constructor <;> rfl

/-- C1 (code evaluation at the failing input): applying CNOT(control = 0,
target = 1) to the state `[0, 0, 0, 1]` does not return `[0, 0, 1, 0]`:
the controlled path of `apply_gate` builds the einsum subscripts for the
full `nqubits`-axis tensor but applies them to the `nactive`-axis control
slice, so the contraction is rejected. -/
theorem C1_cnot_active_raises :
    apply_gate cnot01 (⟨[4], [0, 0, 0, 1]⟩ : NdArray Int) 2 =
      .error "einstein sum subscripts string contains too many subscripts for operand 0" := by
  rfl

/-- C2 (code evaluation at the failing input): applying CNOT(control = 0,
target = 1) to `zero_state(2) = [1, 0, 0, 0]` does not return the state
unchanged: the controlled path of `apply_gate` raises the same einsum
subscript mismatch before any slice is passed through. -/
theorem C2_cnot_inactive_raises :
    apply_gate cnot01 (zero_state Int 2) 2 =
      .error "einstein sum subscripts string contains too many subscripts for operand 0" := by
  rfl

/-- `zipWith` of the right projection on equally long lists. -/
theorem zipWith_right_id {α β : Type} (ts : List α) :
    ∀ (cur : List β), ts.length = cur.length →
      List.zipWith (fun _ v => v) ts cur = cur := by
  induction ts with
  | nil =>
    intro cur h
    cases cur with
    | nil => rfl
    | cons c cur => simp at h
  | cons t ts ih =>
    intro cur h
    cases cur with
    | nil => simp at h
    | cons c cur =>
      simp only [List.length_cons] at h
      simp [ih cur (by omega)]

/-- Two `zipWith`s against the same left list compose pointwise. -/
theorem zipWith_zipWith_same {α β γ δ : Type} (f : α → β → γ) (g : α → δ → β)
    (ts : List α) : ∀ (cur : List δ),
    List.zipWith f ts (List.zipWith g ts cur) =
      List.zipWith (fun t v => f t (g t v)) ts cur := by
  induction ts with
  | nil => intro cur; rfl
  | cons t ts ih =>
    intro cur
    cases cur with
    | nil => rfl
    | cons c cur => simp [ih]

/-- The targets component of the `_control_order` loop: folding the control
list decrements each slot by the number of processed controls smaller than
the corresponding original target. -/
theorem controlStep_foldl_targets (ts : List Nat) :
    ∀ (cs : List Nat) (ls : Nat) (ord : List Nat) (cur : List Int),
      ts.length = cur.length →
      (cs.foldl (controlStep ts) (ls, ord, cur)).2.2 =
        List.zipWith
          (fun t v => v - (cs.countP (fun c => decide (c < t)) : Int)) ts cur := by
  intro cs
  induction cs with
  | nil =>
    intro ls ord cur h
    simp only [List.foldl_nil, List.countP_nil, Nat.cast_zero, sub_zero]
    exact (zipWith_right_id ts cur h).symm
  | cons c cs ih =>
    intro ls ord cur h
    rw [List.foldl_cons]
    have hlen : ts.length =
        (List.zipWith (fun t v => if c < t then v - 1 else v) ts cur).length := by
      rw [List.length_zipWith]
      omega
    rw [show controlStep ts (ls, ord, cur) c =
      (c + 1, ord ++ List.range' ls (c - ls),
        List.zipWith (fun t v => if c < t then v - 1 else v) ts cur) from rfl]
    rw [ih (c + 1) (ord ++ List.range' ls (c - ls)) _ hlen]
    rw [zipWith_zipWith_same]
    congr 1
    funext t v
    by_cases hct : c < t
    · simp [List.countP_cons, hct]
      ring
    · simp [List.countP_cons, hct]

/-- C7: for every gate, the adjusted target list returned by
`_control_order` equals the original targets with each target index
decremented by the number of control indices numerically smaller than that
target. -/
theorem C7_adjusted_targets {R : Type} (g : Gate R) (n : Nat) :
    (control_order g n).2 = g.target_qubits.map
      (fun t : Nat => (t : Int) -
        (g.control_qubits.countP (fun c => decide (c < t)) : Int)) := by
  unfold control_order
  rw [controlStep_foldl_targets g.target_qubits g.control_qubits 0
    g.control_qubits (g.target_qubits.map Int.ofNat) (by simp)]
  rw [List.zipWith_map_right, List.zipWith_same]
  simp

/-- The gap structure appended to the control list by `_control_order`: the
axes from `loop_start` up to each successive control, then the axes after
the last control up to `nqubits`. -/
def gapsFrom (ls : Nat) : List Nat → Nat → List Nat
  | [], n => List.range' ls (n - ls)
  | c :: cs, n => List.range' ls (c - ls) ++ gapsFrom (c + 1) cs n

/-- The order component of the `_control_order` loop, together with the
final tail `range`, is the accumulated order followed by the gaps. -/
theorem controlStep_foldl_order (ts : List Nat) :
    ∀ (cs : List Nat) (ls : Nat) (ord : List Nat) (cur : List Int) (n : Nat),
      (cs.foldl (controlStep ts) (ls, ord, cur)).2.1 ++
        List.range' (cs.foldl (controlStep ts) (ls, ord, cur)).1
          (n - (cs.foldl (controlStep ts) (ls, ord, cur)).1) =
      ord ++ gapsFrom ls cs n := by
  intro cs
  induction cs with
  | nil =>
    intro ls ord cur n
    simp [gapsFrom]
  | cons c cs ih =>
    intro ls ord cur n
    rw [List.foldl_cons]
    rw [show controlStep ts (ls, ord, cur) c =
      (c + 1, ord ++ List.range' ls (c - ls),
        List.zipWith (fun t v => if c < t then v - 1 else v) ts cur) from rfl]
    rw [ih (c + 1) (ord ++ List.range' ls (c - ls)) _ n]
    simp [gapsFrom]

/-- The axis ordering returned by `_control_order` is the control list
followed by the gaps. -/
theorem control_order_fst {R : Type} (g : Gate R) (n : Nat) :
    (control_order g n).1 =
      g.control_qubits ++ gapsFrom 0 g.control_qubits n := by
  unfold control_order
  exact controlStep_foldl_order g.target_qubits g.control_qubits 0
    g.control_qubits (g.target_qubits.map Int.ofNat) n

/-- For an ascending, bounded control list the gaps are exactly the
non-control axes, in ascending order. -/
theorem gapsFrom_eq_filter :
    ∀ (cs : List Nat) (ls n : Nat), List.Sorted (· < ·) cs →
      (∀ c ∈ cs, ls ≤ c ∧ c < n) →
      gapsFrom ls cs n =
        (List.range' ls (n - ls)).filter (fun x => decide (x ∉ cs)) := by
  intro cs
  induction cs with
  | nil =>
    intro ls n _ _
    simp [gapsFrom]
  | cons c cs ih =>
    intro ls n hsort hb
    obtain ⟨hls, hcn⟩ := hb c (List.mem_cons_self c cs)
    have hgt : ∀ x ∈ cs, c < x := (List.sorted_cons.mp hsort).1
    have hsplit : List.range' ls (n - ls) =
        List.range' ls (c - ls) ++ List.range' c (n - c) := by
      have h1 : ls + (c - ls) = c := by omega
      have h2 : (n - c) + (c - ls) = n - ls := by omega
      rw [← h2, ← List.range'_append_1, h1]
    rw [hsplit, List.filter_append]
    have hfirst : (List.range' ls (c - ls)).filter
        (fun x => decide (x ∉ c :: cs)) = List.range' ls (c - ls) := by
      apply List.filter_eq_self.mpr
      intro a ha
      have halt : a < c := by
        have := List.mem_range'_1.mp ha
        omega
      simp only [decide_eq_true_eq]
      intro hmem
      rcases List.mem_cons.mp hmem with h | h
      · omega
      · exact absurd (hgt a h) (by omega)
    have hrange2 : List.range' c (n - c) =
        c :: List.range' (c + 1) (n - c - 1) := by
      have h3 : n - c = (n - c - 1) + 1 := by omega
      conv_lhs => rw [h3]
      rw [List.range'_succ]
    rw [hfirst, hrange2, List.filter_cons]
    have hcfalse : (decide (c ∉ c :: cs)) = false := by simp
    rw [hcfalse]
    simp only [Bool.false_eq_true, if_false]
    have hcongr : (List.range' (c + 1) (n - c - 1)).filter
          (fun x => decide (x ∉ c :: cs)) =
        (List.range' (c + 1) (n - c - 1)).filter (fun x => decide (x ∉ cs)) := by
      apply List.filter_congr
      intro a ha
      have hge : c + 1 ≤ a := by
        have := List.mem_range'_1.mp ha
        omega
      simp [List.mem_cons, show a ≠ c by omega]
    rw [hcongr]
    rw [show gapsFrom ls (c :: cs) n =
      List.range' ls (c - ls) ++ gapsFrom (c + 1) cs n from rfl]
    congr 1
    exact ih (c + 1) n (List.sorted_cons.mp hsort).2
      (fun x hx => ⟨by have := hgt x hx; omega,
        (hb x (List.mem_cons_of_mem c hx)).2⟩)

/-- C6: for every ascending, in-range control list, the axis ordering
returned by `_control_order` lists the controls first, followed by all
non-control axes in ascending order (which is exactly the concatenation of
the ascending gaps before, between and after the controls); when the
control list is empty the ordering is the identity permutation and the
target indices are returned unchanged. -/
theorem C6_order_layout {R : Type} (g : Gate R) (n : Nat)
    (hsort : List.Sorted (· < ·) g.control_qubits)
    (hb : ∀ c ∈ g.control_qubits, c < n) :
    (control_order g n).1 = g.control_qubits ++
      (List.range n).filter (fun x => decide (x ∉ g.control_qubits)) ∧
    (g.control_qubits = [] →
      (control_order g n).1 = List.range n ∧
      (control_order g n).2 = g.target_qubits.map Int.ofNat) := by
  have hmain : (control_order g n).1 = g.control_qubits ++
      (List.range n).filter (fun x => decide (x ∉ g.control_qubits)) := by
    rw [control_order_fst,
      gapsFrom_eq_filter g.control_qubits 0 n hsort
        (fun c hc => ⟨Nat.zero_le c, hb c hc⟩),
      List.range_eq_range', Nat.sub_zero]
  refine ⟨hmain, fun hemp => ⟨?_, ?_⟩⟩
  · rw [hmain, hemp]
    simp
  · unfold control_order
    rw [controlStep_foldl_targets g.target_qubits g.control_qubits 0
      g.control_qubits (g.target_qubits.map Int.ofNat) (by simp), hemp]
    simp only [List.countP_nil, Nat.cast_zero, sub_zero]
    exact zipWith_right_id g.target_qubits _ (by simp)

/-- A gate with controls 0 and 4 and targets 5 and 2, used to instantiate
the ordering theorems. -/
def gControls04 : Gate Int := ⟨[5, 2], [0, 4], pauliX⟩

/-- Witness for C6: the ordering for controls `[0, 4]` among 6 qubits. -/
theorem C6_witness :
    (control_order gControls04 6).1 = gControls04.control_qubits ++
      (List.range 6).filter (fun x => decide (x ∉ gControls04.control_qubits)) ∧
    (gControls04.control_qubits = [] →
      (control_order gControls04 6).1 = List.range 6 ∧
      (control_order gControls04 6).2 =
        gControls04.target_qubits.map Int.ofNat) :=
  C6_order_layout gControls04 6 (by decide) (by decide)

/-- An ascending, bounded list is the restriction of `range n` to its own
members. -/
theorem sorted_eq_filter_range (C : List Nat) (n : Nat)
    (hs : List.Sorted (· < ·) C) (hb : ∀ c ∈ C, c < n) :
    (List.range n).filter (fun x => decide (x ∈ C)) = C := by
  refine List.eq_of_perm_of_sorted ?_ ?_ hs
  · apply (List.perm_ext_iff_of_nodup ((List.nodup_range n).filter _)
      hs.nodup).mpr
    intro a
    simp only [List.mem_filter, List.mem_range, decide_eq_true_eq]
    exact ⟨fun h => h.2, fun h => ⟨hb a h, h⟩⟩
  · exact List.Pairwise.sublist (List.filter_sublist _) (List.sorted_lt_range n)

/-- The axis ordering returned by `_control_order` is a permutation of
`range n` for every ascending, in-range control list. -/
theorem control_order_perm {R : Type} (g : Gate R) (n : Nat)
    (hsort : List.Sorted (· < ·) g.control_qubits)
    (hb : ∀ c ∈ g.control_qubits, c < n) :
    (control_order g n).1.Perm (List.range n) := by
  rw [control_order_fst,
    gapsFrom_eq_filter g.control_qubits 0 n hsort
      (fun c hc => ⟨Nat.zero_le c, hb c hc⟩),
    List.range_eq_range']
  have hsplit := List.filter_append_perm
    (fun x => decide (x ∈ g.control_qubits)) (List.range' 0 n)
  have hnot : (List.range' 0 n).filter
      (fun x => !decide (x ∈ g.control_qubits)) =
      (List.range' 0 n).filter (fun x => decide (x ∉ g.control_qubits)) := by
    apply List.filter_congr
    intro a _
    simp
  rw [hnot] at hsplit
  have hC : (List.range' 0 n).filter (fun x => decide (x ∈ g.control_qubits)) =
      g.control_qubits := by
    rw [← List.range_eq_range']
    exact sorted_eq_filter_range g.control_qubits n hsort hb
  rw [hC] at hsplit
  exact hsplit

/-- The position-setting fold leaves untouched any position that never
occurs as a second component. -/
theorem foldl_set_not_mem (l : List (Nat × Nat)) :
    ∀ (acc : List Nat) (r : Nat), r ∉ l.map Prod.snd →
      (l.foldl (fun a p => a.set p.2 p.1) acc).getD r 0 = acc.getD r 0 := by
  induction l with
  | nil => intro acc r _; rfl
  | cons p t ih =>
    intro acc r h
    simp only [List.map_cons, List.mem_cons] at h
    push_neg at h
    rw [List.foldl_cons, ih _ r h.2]
    simp only [List.getD_eq_getElem?_getD]
    rw [List.getElem?_set_ne (fun hh => h.1 hh.symm)]

/-- The position-setting fold writes `i` at position `r` for every pair
`(i, r)` of the list, provided the written positions are distinct and in
range. -/
theorem foldl_set_mem (l : List (Nat × Nat)) :
    ∀ (acc : List Nat) (i r : Nat), (i, r) ∈ l → (l.map Prod.snd).Nodup →
      r < acc.length →
      (l.foldl (fun a p => a.set p.2 p.1) acc).getD r 0 = i := by
  induction l with
  | nil => intro acc i r h _ _; simp at h
  | cons p t ih =>
    intro acc i r hmem hnd hr
    rw [List.foldl_cons]
    simp only [List.map_cons, List.nodup_cons] at hnd
    rcases List.mem_cons.mp hmem with heq | hmem'
    · subst heq
      rw [foldl_set_not_mem t _ r hnd.1]
      simp only [List.getD_eq_getElem?_getD]
      rw [List.getElem?_set_self hr]
      rfl
    · exact ih (acc.set p.2 p.1) i r hmem' hnd.2 (by simpa using hr)

/-- `reverse_order` inverts the ordering from the left: reading it at
`order[k]` recovers `k`. -/
theorem reverse_order_getD (order : List Nat) (hnd : order.Nodup)
    (hb : ∀ x ∈ order, x < order.length) (k : Nat) (hk : k < order.length) :
    (reverse_order order).getD (order.getD k 0) 0 = k := by
  unfold reverse_order
  have h1 : order[k]? = some order[k] := List.getElem?_eq_getElem hk
  have h2 : order.getD k 0 = order[k] := by
    rw [List.getD_eq_getElem?_getD, h1]
    rfl
  apply foldl_set_mem
  · rw [h2]
    exact List.mk_mem_enum_iff_getElem?.mpr h1
  · rw [show order.enum.map Prod.snd = order from List.enumFrom_map_snd 0 order]
    exact hnd
  · rw [List.length_replicate, h2]
    exact hb _ (List.getElem_mem hk)

/-- `reverse_order` inverts the ordering from the right as well, when the
ordering is a permutation of `range n`. -/
theorem reverse_order_getD_right (order : List Nat) (n : Nat)
    (hperm : order.Perm (List.range n)) (j : Nat) (hj : j < n) :
    order.getD ((reverse_order order).getD j 0) 0 = j := by
  have hjm : j ∈ order := hperm.mem_iff.mpr (List.mem_range.mpr hj)
  obtain ⟨k, hk, hkj⟩ := List.getElem_of_mem hjm
  have hnd : order.Nodup := hperm.nodup_iff.mpr (List.nodup_range n)
  have hb : ∀ x ∈ order, x < order.length := fun x hx => by
    rw [hperm.length_eq, List.length_range]
    exact List.mem_range.mp (hperm.subset hx)
  have h2 : order.getD k 0 = j := by
    rw [List.getD_eq_getElem?_getD, List.getElem?_eq_getElem hk, hkj]
    rfl
  rw [← h2, reverse_order_getD order hnd hb k hk]

/-- C5: for every ascending control set `C` and qubit count `n` with
`0 ≤ |C| < n`, composing the axis ordering produced by `_control_order`
with the inverse ordering computed in `apply_gate` yields the identity
permutation on the `n` axes, in both directions. -/
theorem C5_permutation_roundtrip {R : Type} (g : Gate R) (n : Nat)
    (hsort : List.Sorted (· < ·) g.control_qubits)
    (hb : ∀ c ∈ g.control_qubits, c < n)
    (hcard : g.control_qubits.length < n) :
    ∀ k, k < n →
      (reverse_order (control_order g n).1).getD
        ((control_order g n).1.getD k 0) 0 = k ∧
      (control_order g n).1.getD
        ((reverse_order (control_order g n).1).getD k 0) 0 = k := by
  have hperm := control_order_perm g n hsort hb
  have hlen : (control_order g n).1.length = n := by
    rw [hperm.length_eq, List.length_range]
  have hnd : (control_order g n).1.Nodup :=
    hperm.nodup_iff.mpr (List.nodup_range n)
  intro k hk
  refine ⟨reverse_order_getD _ hnd (fun x hx => ?_) k (by omega), ?_⟩
  · rw [hlen]
    exact List.mem_range.mp (hperm.subset hx)
  · exact reverse_order_getD_right _ n hperm k hk

/-- Witness for C5: the ordering for controls `[0, 4]` among 6 qubits,
evaluated at axis 3. -/
theorem C5_witness :
    (reverse_order (control_order gControls04 6).1).getD
      ((control_order gControls04 6).1.getD 3 0) 0 = 3 ∧
    (control_order gControls04 6).1.getD
      ((reverse_order (control_order gControls04 6).1).getD 3 0) 0 = 3 :=
  C5_permutation_roundtrip gControls04 6 (by decide) (by decide) (by decide)
    3 (by decide)

end Qibo
